import Mathlib

/-!
Verification development for the StackTraceAnalyzer repository.

The TypeScript source is shallowly embedded: strings are `List Char`,
machine integers are `Nat`/`Int`, JavaScript `Map` objects are
insertion-ordered association lists, and the outcomes of external
processes (`exec`, the filesystem) are explicit `Except`/`Option`
inputs to the embedded functions.  JavaScript regular expressions used
by the source are embedded by their matching semantics on ASCII text
(leftmost match, greedy repetition), spelled out as recursive scanners.
Dates are embedded at day granularity: a commit's author timestamp
`t` (seconds) has UTC calendar day `t / 86400`, which is the value the
source compares after `toISOString().split("T")[0]` and
`setHours(0,0,0,0)` normalisation; since that normalisation is applied
uniformly to both sides of every comparison, the comparisons reduce to
comparisons of day numbers.
-/

/-- Characters the source's JavaScript regular expressions treat as
whitespace (`\s`) and that `String.prototype.trim` strips, restricted
to the ASCII range handled in this development. -/
def jsWS (c : Char) : Bool :=
  c == ' ' || c == '\t' || c == '\n' || c == '\r' || c == '\x0b' || c == '\x0c'

/-- Character class `[a-f0-9]` of the blame hash pattern in
`analyzeBlameResults` (src/lib/progress-tracker.ts line 321). -/
def isHexLower (c : Char) : Bool :=
  ('a' ≤ c && c ≤ 'f') || ('0' ≤ c && c ≤ '9')

/-- Lowercasing of a string, as done by `toLowerCase()` in
`calculateNamespaceScore` (ASCII range). -/
def toLowerStr (s : List Char) : List Char := s.map Char.toLower

/-- Replacement of every backslash by a forward slash, as in
`filePath.replace(/\\/g, "/")`. -/
def normSlash (s : List Char) : List Char :=
  s.map (fun c => if c == '\\' then '/' else c)

/-- JavaScript `String.prototype.trim` (ASCII whitespace). -/
def jsTrim (s : List Char) : List Char :=
  ((s.dropWhile jsWS).reverse.dropWhile jsWS).reverse

/-- JavaScript `String.prototype.split` with a one-character separator:
`"".split(sep)` is `[""]`, separators at the ends produce empty parts. -/
def splitOnChar (sep : Char) : List Char → List (List Char)
  | [] => [[]]
  | c :: cs =>
    if c == sep then [] :: splitOnChar sep cs
    else
      match splitOnChar sep cs with
      | [] => [[c]]
      | p :: ps => (c :: p) :: ps

/-- The source's `content.split("\n")`. -/
def splitLines (s : List Char) : List (List Char) := splitOnChar '\n' s

/-- JavaScript `String.prototype.includes`: `pat` occurs as a factor of
the string (the empty pattern always occurs). -/
def hasFactor (pat : List Char) : List Char → Bool
  | [] => pat.isEmpty
  | c :: cs => pat.isPrefixOf (c :: cs) || hasFactor pat cs

/-- Helper for `removeFirst`: removes the first occurrence of the
(nonempty) pattern, scanning left to right. -/
def removeFirstGo (pat : List Char) : List Char → List Char
  | [] => []
  | c :: cs =>
    if pat.isPrefixOf (c :: cs) then (c :: cs).drop pat.length
    else c :: removeFirstGo pat cs

/-- JavaScript `s.replace(pat, "")` for a plain-string `pat`: deletes
the first occurrence of `pat`; with an empty pattern the string is
unchanged (the empty match is replaced by the empty string). -/
def removeFirst (pat : List Char) (s : List Char) : List Char :=
  if pat.isEmpty then s else removeFirstGo pat s

/-- JavaScript `s.replace(/^\//, "")`: strips one leading slash. -/
def stripLeadSlash : List Char → List Char
  | '/' :: cs => cs
  | cs => cs

/-- Value of a list of decimal digit characters. -/
def digitsToNat (ds : List Char) : Nat :=
  ds.foldl (fun n c => n * 10 + (c.toNat - '0'.toNat)) 0

/-- JavaScript `Number.parseInt` on the non-negative decimal inputs
that occur in blame output: optional leading whitespace, then a
maximal digit run; no digits means `NaN`, embedded as `none`. -/
def parseIntPrefix (cs : List Char) : Option Nat :=
  let ds := (cs.dropWhile jsWS).takeWhile Char.isDigit
  if ds.isEmpty then none else some (digitsToNat ds)

/-- The PR source enumeration `"github" | "azure"` of the source. -/
inductive PRSource
  | github
  | azure
deriving DecidableEq, Repr

/-- Attempt, at a fixed position, the pattern `lit(\d+)`: the literal
followed by a nonempty greedy digit run (the capture). -/
def litDigitsAt (lit : List Char) (cs : List Char) : Option (List Char) :=
  if lit.isPrefixOf cs then
    let ds := (cs.drop lit.length).takeWhile Char.isDigit
    if ds.isEmpty then none else some ds
  else none

/-- Attempt, at a fixed position, the pattern `\(#(\d+)\)`. -/
def parenHashAt (cs : List Char) : Option (List Char) :=
  if ("(#".toList).isPrefixOf cs then
    let rest := cs.drop 2
    let ds := rest.takeWhile Char.isDigit
    if ds.isEmpty then none
    else
      match rest.drop ds.length with
      | ')' :: _ => some ds
      | _ => none
  else none

/-- Attempt, at a fixed position, the pattern `\(PR\s+(\d+)\)`. -/
def parenPRAt (cs : List Char) : Option (List Char) :=
  if ("(PR".toList).isPrefixOf cs then
    let rest := cs.drop 3
    let ws := rest.takeWhile jsWS
    if ws.isEmpty then none
    else
      let rest2 := rest.drop ws.length
      let ds := rest2.takeWhile Char.isDigit
      if ds.isEmpty then none
      else
        match rest2.drop ds.length with
        | ')' :: _ => some ds
        | _ => none
  else none

/-- Attempt, at a fixed position, the pattern `lit\s+(\d+)`. -/
def litWsDigitsAt (lit : List Char) (cs : List Char) : Option (List Char) :=
  if lit.isPrefixOf cs then
    let rest := cs.drop lit.length
    let ws := rest.takeWhile jsWS
    if ws.isEmpty then none
    else
      let ds := (rest.drop ws.length).takeWhile Char.isDigit
      if ds.isEmpty then none else some ds
  else none

/-- Unanchored regular-expression search: try `matchAt` at each
position left to right (including the end-of-string position) and
return the first successful capture. -/
def findFirstMatch (matchAt : List Char → Option (List Char)) : List Char → Option (List Char)
  | [] => matchAt []
  | c :: cs =>
    match matchAt (c :: cs) with
    | some v => some v
    | none => findFirstMatch matchAt cs

/-- The function `extractPRNumber` of src/unnamed/part_001 lines
105-127: the five patterns are tried in fixed order, the first whose
leftmost match succeeds supplies both the number and the source. -/
def extractPRNumber (message : List Char) : Option (List Char) × Option PRSource :=
  match findFirstMatch (litDigitsAt ("Merge pull request #".toList)) message with
  | some n => (some n, some PRSource.github)
  | none =>
  match findFirstMatch parenHashAt message with
  | some n => (some n, some PRSource.github)
  | none =>
  match findFirstMatch parenPRAt message with
  | some n => (some n, some PRSource.azure)
  | none =>
  match findFirstMatch (litDigitsAt ("#".toList)) message with
  | some n => (some n, some PRSource.github)
  | none =>
  match findFirstMatch (litWsDigitsAt ("PR".toList)) message with
  | some n => (some n, some PRSource.azure)
  | none => (none, none)

/-- The function `getPRUrl` of src/unnamed/part_001 lines 132-138. -/
def getPRUrl (prNumber : List Char) (source : Option PRSource) : List Char :=
  match source with
  | some PRSource.azure =>
    ("https://devops.wisetechglobal.com/wtg/CargoWise/_git/Dev/pullrequest/".toList) ++ prNumber
  | _ => ("https://github.com/WiseTechGlobal/CargoWise/pull/".toList) ++ prNumber

/-- Namespace parts used by `calculateNamespaceScore`:
`namespace.split(".").slice(0, -1).map(p => p.toLowerCase())`. -/
def nsPartsOf (nsStr : List Char) : List (List Char) :=
  ((splitOnChar '.' nsStr).dropLast).map toLowerStr

/-- The relative path computed by `calculateNamespaceScore` lines
112-114: normalise slashes and case on both the candidate path and the
project root, delete the first occurrence of the root, strip one
leading slash. -/
def relPathOf (filePath projectRoot : List Char) : List Char :=
  stripLeadSlash (removeFirst (toLowerStr (normSlash projectRoot)) (toLowerStr (normSlash filePath)))

/-- The function `calculateNamespaceScore` of src/lib/progress-tracker.ts
lines 111-140.  The `consecutiveMatches` loop runs over every index
`i < min(namespaceParts.length, pathParts.length)` and increments on a
positional match; it contains no break, which the zip below mirrors. -/
def calculateNamespaceScore (filePath nsStr projectRoot : List Char) : Nat :=
  let relativePath := relPathOf filePath projectRoot
  let namespaceParts := nsPartsOf nsStr
  let pathParts := splitOnChar '/' relativePath
  let consecutiveMatches :=
    (List.zipWith (fun np pp => toLowerStr pp == np) namespaceParts pathParts).count true
  let totalMatches := (namespaceParts.filter (fun part => hasFactor part relativePath)).length
  consecutiveMatches * 100 + totalMatches * 10

/-- Stable insertion step of a descending sort keyed by a `Nat` value:
the inserted element passes over strictly greater keys and lands in
front of the first key less than or equal to its own. -/
def insertDescBy (key : α → Nat) (a : α) : List α → List α
  | [] => [a]
  | b :: l => if key a < key b then b :: insertDescBy key a l else a :: b :: l

/-- Stable descending sort by a `Nat` key.  This is the behaviour of
the source's `Array.prototype.sort` calls with comparator
`(a, b) => keyB - keyA` (ECMAScript sort is stable). -/
def sortDescBy (key : α → Nat) : List α → List α
  | [] => []
  | b :: l => insertDescBy key b (sortDescBy key l)

/-- The function `findSourceFile` of src/lib/progress-tracker.ts lines
146-188.  The `exec` of the recursive filename search is an explicit
input: `Except.error` is a rejected promise, caught by the source's
`catch` which returns `null`; `Except.ok` carries the tool's stdout.
With several candidates each is scored, the scored array is sorted
descending by score (stable) and the first element is returned. -/
def findSourceFile (execResult : Except (List Char) (List Char))
    (nsStr : List Char) (projectRoot : List Char) : Option (List Char) :=
  match execResult with
  | .error _ => none
  | .ok out =>
    let filePaths :=
      ((splitLines (jsTrim out)).filter (fun p => !(jsTrim p).isEmpty)).map jsTrim
    match filePaths with
    | [] => none
    | [p] => some p
    | ps =>
      let scored := ps.map (fun p => (p, calculateNamespaceScore p nsStr projectRoot))
      match sortDescBy Prod.snd scored with
      | [] => none
      | m :: _ => some m.1

/-- The opening brace character, `\x7b`. -/
def openBrace : Char := Char.ofNat 123

/-- The closing brace character, `\x7d`. -/
def closeBrace : Char := Char.ofNat 125

/-- Per-line brace balance `(line.match(/{/g) || []).length -
(line.match(/}/g) || []).length` of lines 232-233. -/
def braceDelta (l : List Char) : Int :=
  (l.countP (fun c => c == openBrace) : Int) - (l.countP (fun c => c == closeBrace) : Int)

/-- Tail of the method-signature pattern: `\s*\(` — optional
whitespace then an opening parenthesis. -/
def afterNameParen : List Char → Bool
  | [] => false
  | c :: cs => if jsWS c then afterNameParen cs else c == '('

/-- The method pattern of lines 208-211 tried at one position of an
(already lowercased) line.  The leading groups
`(public|private|protected|internal)?\s*(async\s*)?(static\s*)?.*?`
of the pattern all accept the empty string, so the pattern matches a
line exactly when some position carries its mandatory tail
`\s+<name>\s*\(`: a whitespace character, the literal (regex-escaped)
method name, optional whitespace and `(`. -/
def sigAt (nm : List Char) : List Char → Bool
  | [] => false
  | c :: rest => jsWS c && nm.isPrefixOf rest && afterNameParen (rest.drop nm.length)

/-- Does some suffix of the list satisfy the position test? -/
def anySuffix (p : List Char → Bool) : List Char → Bool
  | [] => p []
  | c :: cs => p (c :: cs) || anySuffix p cs

/-- `methodPattern.test(line)` for the flexible signature pattern,
case-insensitive via the `"i"` flag (both sides lowercased). -/
def sigMatchLine (methodName : List Char) (line : List Char) : Bool :=
  anySuffix (sigAt (toLowerStr methodName)) (toLowerStr line)

/-- The scan of lines 213-218: index of the first line the pattern
matches, `none` when no line matches (`methodStartLine === -1`). -/
def firstMatchIdx (p : List Char → Bool) : List (List Char) → Option Nat
  | [] => none
  | l :: ls => if p l then some 0 else (firstMatchIdx p ls).map (· + 1)

/-- The brace-tracking loop of lines 230-243.  `count` is the running
`braceCount`, `found` is `foundOpeningBrace`; the loop breaks with the
current index once `found` holds and the count is back to zero, and
returns `none` when it runs off the end of the file without breaking. -/
def goBrace (count : Int) (found : Bool) (idx : Nat) : List (List Char) → Option Nat
  | [] => none
  | l :: ls =>
    let c := count + braceDelta l
    let f := found || decide (0 < c)
    if f && decide (c = 0) then some idx else goBrace c f (idx + 1) ls

/-- `methodEndLine` after the loop: the break index if the loop broke,
otherwise its initial value `methodStartLine`. -/
def findEndLine (startIdx : Nat) (lines : List (List Char)) : Nat :=
  match goBrace 0 false startIdx (lines.drop startIdx) with
  | some e => e
  | none => startIdx

/-- The 1-based inclusive line range returned by `findMethodLineRange`
(`stop` embeds the source's `end`, a reserved word in Lean). -/
structure LineRange where
  start : Nat
  stop : Nat
deriving DecidableEq, Repr

/-- The function `findMethodLineRange` of src/lib/progress-tracker.ts
lines 194-253.  The filesystem is an explicit input: `none` means
`fs.existsSync(filePath)` is false (the source returns `null`), `some
content` is the text read by `readFileSync`. -/
def findMethodLineRange (file : Option (List Char)) (methodName : List Char) : Option LineRange :=
  match file with
  | none => none
  | some content =>
    let lines := splitLines content
    match firstMatchIdx (sigMatchLine methodName) lines with
    | none => none
    | some d =>
      let e := findEndLine d lines
      some { start := d + 1, stop := Nat.min (e + 1) lines.length }

/-- Executable form of "the running brace counter never becomes
positive": starting from `acc`, every prefix sum of the deltas stays
at or below zero. -/
def allPrefixNonpos (acc : Int) : List Int → Bool
  | [] => true
  | d :: ds =>
    let c := acc + d
    decide (c ≤ 0) && allPrefixNonpos c ds

/-- The `StackTraceEntry` interface of src/unnamed/part_002 (`ns`
embeds the source's `namespace`, a reserved word in Lean). -/
structure StackTraceEntry where
  ns : List Char
  methodName : List Char
  originalLine : List Char
  lineIndex : Nat
deriving DecidableEq, Repr

/-- The deduplication key `` `${entry.namespace}.${entry.methodName}` ``. -/
def entryKey (e : StackTraceEntry) : List Char := e.ns ++ ('.' :: e.methodName)

/-- The filter body of `deduplicateEntries` (src/unnamed/part_002
lines 54-64) with the mutable `seen` set made explicit. -/
def dedupGo (seen : List (List Char)) : List StackTraceEntry → List StackTraceEntry
  | [] => []
  | e :: es =>
    if seen.contains (entryKey e) then dedupGo seen es
    else e :: dedupGo (entryKey e :: seen) es

/-- The function `deduplicateEntries` of src/unnamed/part_002. -/
def deduplicateEntries (entries : List StackTraceEntry) : List StackTraceEntry :=
  dedupGo [] entries

/-- The `GitBlameAnalysis` record of src/lib/progress-tracker.ts lines
269-279.  `commitDate` is the commit's UTC calendar day number;
`none` embeds the initial empty string, whose `new Date` is invalid
and compares false on both date checks. -/
structure GitBlameAnalysis where
  commitHash : List Char
  author : List Char
  commitDate : Option Nat
  commitMessage : List Char
  prNumber : Option (List Char)
  prSource : Option PRSource
  prUrl : Option (List Char)
  inDateRange : Bool
  withinOneYear : Bool
deriving DecidableEq, Repr

/-- Parser state of the blame loop: the insertion-ordered `commitMap`
and the hash whose record `currentCommit` aliases (the source's
`currentCommit` always points at a record stored in the map). -/
structure BlameState where
  records : List (List Char × GitBlameAnalysis)
  current : Option (List Char)
deriving DecidableEq, Repr

/-- The fresh record created at the first occurrence of a hash
(lines 326-334). -/
def initRecord (h : List Char) : GitBlameAnalysis :=
  { commitHash := h, author := ("Unknown".toList), commitDate := none,
    commitMessage := [], prNumber := none, prSource := none, prUrl := none,
    inDateRange := false, withinOneYear := false }

/-- Matching of `/^([a-f0-9]+)\s+/` combined with the
`!line.includes("\t")` guard of line 322: a nonempty maximal run of
lowercase-hex characters followed by a whitespace character, on a line
containing no tab; the capture is the run. -/
def hashLineHead (l : List Char) : Option (List Char) :=
  let run := l.takeWhile isHexLower
  if run.isEmpty then none
  else
    match l.drop run.length with
    | c :: _ => if jsWS c && !(l.contains '\t') then some run else none
    | [] => none

/-- In-place update of the record stored under key `h` (mutation of
the aliased `currentCommit` object). -/
def setRecord (h : List Char) (f : GitBlameAnalysis → GitBlameAnalysis)
    (rs : List (List Char × GitBlameAnalysis)) : List (List Char × GitBlameAnalysis) :=
  rs.map (fun p => if p.1 == h then (p.1, f p.2) else p)

/-- Mutation of `currentCommit` when it is non-null, identity
otherwise (the `&& currentCommit` guards of lines 339-344). -/
def updateCurrent (st : BlameState) (f : GitBlameAnalysis → GitBlameAnalysis) : BlameState :=
  match st.current with
  | none => st
  | some h => { st with records := setRecord h f st.records }

/-- The hash-line step of lines 321-336: a first-seen hash appends a
fresh record and redirects `currentCommit`; an already-seen hash
leaves the state (including `currentCommit`) unchanged. -/
def hashStep (st : BlameState) (l : List Char) : BlameState :=
  match hashLineHead l with
  | none => st
  | some h =>
    if st.records.any (fun p => p.1 == h) then st
    else { records := st.records ++ [(h, initRecord h)], current := some h }

/-- `currentCommit.author = line.replace("author ", "")` (line 340). -/
def authorUpdate (a : List Char) (r : GitBlameAnalysis) : GitBlameAnalysis :=
  { r with author := a }

/-- Lines 342-343: the author timestamp (seconds) becomes the UTC
calendar day stored in `commitDate`. -/
def timeUpdate (t : Nat) (r : GitBlameAnalysis) : GitBlameAnalysis :=
  { r with commitDate := some (t / 86400) }

/-- The summary step of lines 344-362: store the message, run PR
extraction (the `if (prNumber)` truthiness test requires a present,
nonempty capture), then classify the stored commit date against the
start date and the one-year retention threshold (an invalid/absent
date compares false against both). -/
def summaryUpdate (startDay oneYearDay : Nat) (msg : List Char)
    (r : GitBlameAnalysis) : GitBlameAnalysis :=
  let pr := extractPRNumber msg
  let r1 := { r with commitMessage := msg }
  let r2 :=
    match pr.1 with
    | some n =>
      if n.isEmpty then r1
      else { r1 with prNumber := some n, prSource := pr.2, prUrl := some (getPRUrl n pr.2) }
    | none => r1
  { r2 with
    inDateRange := match r2.commitDate with
      | some d => decide (startDay ≤ d)
      | none => false,
    withinOneYear := match r2.commitDate with
      | some d => decide (oneYearDay ≤ d)
      | none => false }

/-- One iteration of the parse loop (lines 317-363) over one line of
blame output.  `none` embeds the only statement in the loop that can
throw: `toISOString` on the invalid date produced when
`Number.parseInt` of a malformed author-time payload yields `NaN`
(caught by the outer `catch`, which returns `[]`). -/
def processLine (startDay oneYearDay : Nat) (st : BlameState) (l : List Char) :
    Option BlameState :=
  if l.all jsWS then some st
  else
    let st1 := hashStep st l
    if ("author ".toList).isPrefixOf l then
      some (updateCurrent st1 (authorUpdate (l.drop 7)))
    else if ("author-time ".toList).isPrefixOf l then
      match st1.current with
      | none => some st1
      | some _ =>
        match parseIntPrefix (l.drop 12) with
        | none => none
        | some t => some (updateCurrent st1 (timeUpdate t))
    else if ("summary ".toList).isPrefixOf l then
      some (updateCurrent st1 (summaryUpdate startDay oneYearDay (l.drop 8)))
    else some st1

/-- The whole parse loop over the list of lines. -/
def processLines (startDay oneYearDay : Nat) (st : BlameState) :
    List (List Char) → Option BlameState
  | [] => some st
  | l :: ls =>
    match processLine startDay oneYearDay st l with
    | none => none
    | some st' => processLines startDay oneYearDay st' ls

/-- `Array.from(commitMap.values())`: the records in discovery
(insertion) order. -/
def blameValues (st : BlameState) : List GitBlameAnalysis := st.records.map Prod.snd

/-- Sort key of the comparator at line 367: the commit's day number
(every record that survives the retention filter carries one;
an absent date is keyed 0). -/
def dateKey (r : GitBlameAnalysis) : Nat := r.commitDate.getD 0

/-- The body of `analyzeBlameResults` (lines 306-369) on the split
stdout of the blame tool: parse all lines (a parse-time throw is
caught and yields `[]`), keep the records `withinOneYear`, and
stable-sort them by date descending. -/
def analyzeBlameLines (ls : List (List Char)) (startDay oneYearDay : Nat) :
    List GitBlameAnalysis :=
  match processLines startDay oneYearDay { records := [], current := none } ls with
  | none => []
  | some st => sortDescBy dateKey ((blameValues st).filter (fun c => c.withinOneYear))

/-- The function `analyzeBlameResults` of src/lib/progress-tracker.ts
lines 285-374.  The blame tool invocation is an explicit input: a
rejected `exec` promise (`Except.error`) is caught by the source's
`catch`, which returns the empty list; `Except.ok` carries stdout,
which is split on newlines and parsed. -/
def analyzeBlameResults (execResult : Except (List Char) (List Char))
    (startDay oneYearDay : Nat) : List GitBlameAnalysis :=
  match execResult with
  | .error _ => []
  | .ok out => analyzeBlameLines (splitLines out) startDay oneYearDay

/-- One first-occurrence commit group of incremental blame output:
hash header, author line, author-time line (raw payload), summary.
Genuine incremental blame output presents each commit's metadata
exactly once: the first header line for a hash is followed by its
metadata group, and later header lines for the same hash carry no
metadata; this block form captures the lines of a first-occurrence
group that the parser reacts to (every other metadata line of the
real format is ignored by the parser). -/
structure BlameBlock where
  hash : List Char
  authorName : List Char
  timePayload : List Char
  summary : List Char
deriving DecidableEq, Repr

/-- The four lines of a first-occurrence group. -/
def blockLines (b : BlameBlock) : List (List Char) :=
  [b.hash ++ (" 1 1 1".toList),
   ("author ".toList) ++ b.authorName,
   ("author-time ".toList) ++ b.timePayload,
   ("summary ".toList) ++ b.summary]

/-- A block the parser accepts: a nonempty lowercase-hex hash and a
parsable author timestamp. -/
abbrev goodBlock (b : BlameBlock) : Prop :=
  b.hash ≠ [] ∧ b.hash.all isHexLower = true ∧ (parseIntPrefix b.timePayload).isSome = true

/-- The record the parser builds from one first-occurrence group. -/
def blockRec (startDay oneYearDay : Nat) (b : BlameBlock) : GitBlameAnalysis :=
  summaryUpdate startDay oneYearDay b.summary
    (timeUpdate ((parseIntPrefix b.timePayload).getD 0)
      (authorUpdate b.authorName (initRecord b.hash)))

/-- Entries instantiating deduplication: the first two share the key
`App.Run`. -/
def dupDemoEntries : List StackTraceEntry :=
  [{ ns := ("App".toList), methodName := ("Run".toList),
     originalLine := ("l1".toList), lineIndex := 0 },
   { ns := ("App".toList), methodName := ("Run".toList),
     originalLine := ("l2".toList), lineIndex := 1 },
   { ns := ("Lib".toList), methodName := ("Go".toList),
     originalLine := ("l3".toList), lineIndex := 2 }]

/-- Number of indices (over the common length) at which the path part
equals the namespace part, with no stop at a mismatch — what the
source's breakless loop computes. -/
def posMatchCount : List (List Char) → List (List Char) → Nat
  | np :: ns, pp :: ps => (if toLowerStr pp == np then 1 else 0) + posMatchCount ns ps
  | _, _ => 0

/-- Modelled from the spec: leading parts equal "in order, stopping at
the first mismatch". -/
def specConsecutiveCount : List (List Char) → List (List Char) → Nat
  | np :: ns, pp :: ps => if toLowerStr pp == np then specConsecutiveCount ns ps + 1 else 0
  | _, _ => 0

/-- Number of namespace parts occurring anywhere as a substring of the
relative path. -/
def containmentCount (parts : List (List Char)) (relPath : List Char) : Nat :=
  parts.countP (fun p => hasFactor p relPath)

def blocksLines : List BlameBlock → List (List Char)
  | [] => []
  | b :: bs => blockLines b ++ blocksLines bs

def StInv (st : BlameState) : Prop :=
  (st.records.map Prod.fst).Nodup
  ∧ ∀ p ∈ st.records, p.2.commitHash = p.1 ∧ p.2.prNumber.isSome = p.2.prSource.isSome

def PreservesRec (f : GitBlameAnalysis → GitBlameAnalysis) : Prop :=
  ∀ r, (f r).commitHash = r.commitHash
    ∧ (r.prNumber.isSome = r.prSource.isSome →
        (f r).prNumber.isSome = (f r).prSource.isSome)

def demoBlameState : BlameState :=
  { records := [(("aaaa".toList), initRecord ("aaaa".toList))],
    current := some ("aaaa".toList) }

def prDemoBlock : BlameBlock :=
  { hash := ("aaaa".toList), authorName := ("A".toList),
    timePayload := ("432000".toList), summary := ("Fix bug (#42)".toList) }

/-! ## Lemmas about the stable descending sort -/

theorem insertDescBy_perm (key : α → Nat) (a : α) (l : List α) :
    List.Perm (insertDescBy key a l) (a :: l) := by
  induction l with
  | nil => simp [insertDescBy]
  | cons b l ih =>
    by_cases h : key a < key b
    · simp only [insertDescBy, if_pos h]
      exact (ih.cons b).trans (List.Perm.swap a b l)
    · simp [insertDescBy, if_neg h]

theorem sortDescBy_perm (key : α → Nat) (l : List α) :
    List.Perm (sortDescBy key l) l := by
  induction l with
  | nil => simp [sortDescBy]
  | cons b l ih =>
    exact (insertDescBy_perm key b (sortDescBy key l)).trans (ih.cons b)

theorem mem_insertDescBy {key : α → Nat} {a x : α} {l : List α} :
    x ∈ insertDescBy key a l ↔ x = a ∨ x ∈ l := by
  rw [(insertDescBy_perm key a l).mem_iff]
  simp

theorem pairwise_insertDescBy {key : α → Nat} {a : α} {l : List α}
    (h : l.Pairwise (fun x y => key y ≤ key x)) :
    (insertDescBy key a l).Pairwise (fun x y => key y ≤ key x) := by
  induction l with
  | nil => simp [insertDescBy]
  | cons b l ih =>
    rcases List.pairwise_cons.mp h with ⟨hb, hl⟩
    by_cases hab : key a < key b
    · simp only [insertDescBy, if_pos hab]
      refine List.pairwise_cons.mpr ⟨?_, ih hl⟩
      intro y hy
      rcases mem_insertDescBy.mp hy with rfl | hy
      · exact Nat.le_of_lt hab
      · exact hb y hy
    · simp only [insertDescBy, if_neg hab]
      refine List.pairwise_cons.mpr ⟨?_, h⟩
      intro y hy
      rcases List.mem_cons.mp hy with rfl | hy
      · exact Nat.le_of_not_lt hab
      · exact Nat.le_trans (hb y hy) (Nat.le_of_not_lt hab)

theorem sortDescBy_pairwise (key : α → Nat) (l : List α) :
    (sortDescBy key l).Pairwise (fun x y => key y ≤ key x) := by
  induction l with
  | nil => simp [sortDescBy]
  | cons b l ih => exact pairwise_insertDescBy ih

theorem filter_insertDescBy (key : α → Nat) (k : Nat) (a : α) (l : List α) :
    (insertDescBy key a l).filter (fun x => key x == k)
      = (a :: l).filter (fun x => key x == k) := by
  induction l with
  | nil => rfl
  | cons b l ih =>
    by_cases hab : key a < key b
    · simp only [insertDescBy, if_pos hab]
      by_cases ha : key a = k
      · have hb : ¬ key b = k := by omega
        have ha' : (key a == k) = true := beq_iff_eq.mpr ha
        have hb' : (key b == k) = false := beq_eq_false_iff_ne.mpr hb
        simp [List.filter_cons, ha', hb', ih]
      · have ha' : (key a == k) = false := beq_eq_false_iff_ne.mpr ha
        by_cases hb : key b = k
        · have hb' : (key b == k) = true := beq_iff_eq.mpr hb
          simp [List.filter_cons, ha', hb', ih]
        · have hb' : (key b == k) = false := beq_eq_false_iff_ne.mpr hb
          simp [List.filter_cons, ha', hb', ih]
    · simp [insertDescBy, if_neg hab]

theorem filter_sortDescBy (key : α → Nat) (k : Nat) (l : List α) :
    (sortDescBy key l).filter (fun x => key x == k) = l.filter (fun x => key x == k) := by
  induction l with
  | nil => rfl
  | cons b l ih =>
    calc (insertDescBy key b (sortDescBy key l)).filter (fun x => key x == k)
        = (b :: sortDescBy key l).filter (fun x => key x == k) :=
          filter_insertDescBy key k b (sortDescBy key l)
      _ = (b :: l).filter (fun x => key x == k) := by
          by_cases hb : key b = k <;> simp [List.filter, hb, ih]

/-! ## Lemmas about deduplication -/

theorem dedupGo_sublist (seen : List (List Char)) (l : List StackTraceEntry) :
    List.Sublist (dedupGo seen l) l := by
  induction l generalizing seen with
  | nil => simp [dedupGo]
  | cons e es ih =>
    by_cases h : seen.contains (entryKey e)
    · simp only [dedupGo, if_pos h]
      exact (ih seen).cons e
    · simp only [dedupGo, if_neg h]
      exact (ih (entryKey e :: seen)).cons₂ e

theorem mem_dedupGo_not_seen (seen : List (List Char)) (l : List StackTraceEntry) :
    ∀ e ∈ dedupGo seen l, seen.contains (entryKey e) = false := by
  induction l generalizing seen with
  | nil => simp [dedupGo]
  | cons e es ih =>
    by_cases h : seen.contains (entryKey e)
    · simp only [dedupGo, if_pos h]
      exact ih seen
    · simp only [dedupGo, if_neg h]
      intro f hf
      rcases List.mem_cons.mp hf with rfl | hf
      · exact Bool.eq_false_iff.mpr h
      · have := ih (entryKey e :: seen) f hf
        simp only [List.contains_cons, Bool.or_eq_false_iff] at this
        exact this.2

theorem dedupGo_pairwise (seen : List (List Char)) (l : List StackTraceEntry) :
    (dedupGo seen l).Pairwise (fun a b => entryKey a ≠ entryKey b) := by
  induction l generalizing seen with
  | nil => simp [dedupGo]
  | cons e es ih =>
    by_cases h : seen.contains (entryKey e)
    · simp only [dedupGo, if_pos h]
      exact ih seen
    · simp only [dedupGo, if_neg h]
      refine List.pairwise_cons.mpr ⟨?_, ih (entryKey e :: seen)⟩
      intro f hf heq
      have := mem_dedupGo_not_seen (entryKey e :: seen) es f hf
      simp [List.contains_cons, heq] at this

theorem dedupGo_find? (l : List StackTraceEntry) (seen : List (List Char)) (k : List Char)
    (hk : seen.contains k = false) :
    (dedupGo seen l).find? (fun f => entryKey f == k) = l.find? (fun f => entryKey f == k) := by
  induction l generalizing seen with
  | nil => rfl
  | cons e es ih =>
    by_cases h : seen.contains (entryKey e)
    · have hne : (entryKey e == k) = false := by
        rw [beq_eq_false_iff_ne]
        intro heq
        rw [heq, hk] at h
        exact Bool.false_ne_true h
      simp only [dedupGo, if_pos h]
      rw [ih seen hk]
      simp [List.find?_cons, hne]
    · simp only [dedupGo, if_neg h]
      by_cases hkk : (entryKey e == k) = true
      · simp [List.find?_cons, hkk]
      · have hkk' : (entryKey e == k) = false := Bool.eq_false_iff.mpr hkk
        have hk' : (entryKey e :: seen).contains k = false := by
          simp only [List.contains_cons, Bool.or_eq_false_iff]
          constructor
          · rw [beq_eq_false_iff_ne]
            intro heq
            rw [beq_eq_false_iff_ne] at hkk'
            exact hkk' heq.symm
          · exact hk
        simp only [List.find?_cons, hkk']
        exact ih (entryKey e :: seen) hk'

theorem find?_key_isSome_of_mem {e : StackTraceEntry} {l : List StackTraceEntry} (h : e ∈ l) :
    (l.find? (fun f => entryKey f == entryKey e)).isSome = true := by
  induction l with
  | nil => simp at h
  | cons x xs ih =>
    by_cases hx : (entryKey x == entryKey e) = true
    · simp [List.find?_cons, hx]
    · have hx' : (entryKey x == entryKey e) = false := Bool.eq_false_iff.mpr hx
      rcases List.mem_cons.mp h with rfl | h
      · simp at hx'
      · simp only [List.find?_cons, hx']
        exact ih h

/-- Claim C7: deduplicateEntries keeps, for each `namespace + "." + methodName`
key, exactly the first-occurring entry of the input, in the input's
first-occurrence order: the output has pairwise distinct keys, is a
sublist of the input (hence in input order), finding the first entry
for any key gives the same answer on input and output, and every key
of the input is represented in the output. -/
theorem claim_C7 (entries : List StackTraceEntry) :
    (deduplicateEntries entries).Pairwise (fun a b => entryKey a ≠ entryKey b)
    ∧ List.Sublist (deduplicateEntries entries) entries
    ∧ (∀ k : List Char, (deduplicateEntries entries).find? (fun f => entryKey f == k)
        = entries.find? (fun f => entryKey f == k))
    ∧ ∀ e ∈ entries, ∃ f ∈ deduplicateEntries entries, entryKey f = entryKey e := by
  refine ⟨dedupGo_pairwise [] entries, dedupGo_sublist [] entries,
    fun k => dedupGo_find? entries [] k rfl, ?_⟩
  intro e he
  have h1 := dedupGo_find? entries [] (entryKey e) rfl
  have h2 := find?_key_isSome_of_mem he
  rw [← h1] at h2
  rcases Option.isSome_iff_exists.mp h2 with ⟨f, hf⟩
  have hp := List.find?_some hf
  have hm := List.mem_of_find?_eq_some hf
  exact ⟨f, hm, beq_iff_eq.mp hp⟩

/-- Witness for C7 at a concrete duplicated input. -/
theorem claim_C7_witness :
    ((deduplicateEntries dupDemoEntries).find? (fun f => entryKey f == ("App.Run".toList))
      = dupDemoEntries.find? (fun f => entryKey f == ("App.Run".toList)))
    ∧ ∃ f ∈ deduplicateEntries dupDemoEntries,
        entryKey f = entryKey { ns := ("App".toList), methodName := ("Run".toList),
                                originalLine := ("l2".toList), lineIndex := 1 } :=
  ⟨(claim_C7 dupDemoEntries).2.2.1 ("App.Run".toList),
   (claim_C7 dupDemoEntries).2.2.2 _ (by decide)⟩

theorem zipCount_eq_posMatchCount (ns ps : List (List Char)) :
    (List.zipWith (fun np pp => toLowerStr pp == np) ns ps).count true = posMatchCount ns ps := by
  induction ns generalizing ps with
  | nil => cases ps <;> rfl
  | cons np ns ih =>
    cases ps with
    | nil => rfl
    | cons pp ps =>
      simp only [List.zipWith_cons_cons, List.count_cons, ih, posMatchCount]
      by_cases h : (toLowerStr pp == np) = true
      · simp [h]
        omega
      · simp [h]

/-- Claim C2 (amended): for every candidate path, namespace and project
root, the namespace affinity score equals `100 * c + 10 * t` where `c`
counts the indices at which the relative-path part equals the
corresponding namespace part — at every position over the common
length, with no stop at the first mismatch — and `t` counts the
namespace parts occurring anywhere as a substring of the normalized
relative path. -/
theorem claim_C2 (filePath nsStr projectRoot : List Char) :
    calculateNamespaceScore filePath nsStr projectRoot
      = 100 * posMatchCount (nsPartsOf nsStr) (splitOnChar '/' (relPathOf filePath projectRoot))
        + 10 * containmentCount (nsPartsOf nsStr) (relPathOf filePath projectRoot) := by
  unfold calculateNamespaceScore containmentCount
  simp only [zipCount_eq_posMatchCount, List.countP_eq_length_filter]
  omega

/-- Claim C2 counterexample: for path `x/b/Cls.cs`, namespace `A.B.Cls` and
an empty project root, the code's score is 110 (the breakless loop
still counts the positional match of part `b` at index 1 after the
mismatch at index 0), while the claimed formula with
stop-at-first-mismatch consecutive counting gives 10. -/
theorem claim_C2_counterexample :
    calculateNamespaceScore ("x/b/Cls.cs".toList) ("A.B.Cls".toList) [] = 110
    ∧ 100 * specConsecutiveCount (nsPartsOf ("A.B.Cls".toList))
          (splitOnChar '/' (relPathOf ("x/b/Cls.cs".toList) []))
        + 10 * containmentCount (nsPartsOf ("A.B.Cls".toList))
          (relPathOf ("x/b/Cls.cs".toList) [])
      = 10
    ∧ (110 : Nat) ≠ 10 :=
  ⟨by decide, by decide, by decide⟩

/-- Claim C9: a rejected invocation of the external search or blame tool
(missing tool, permission denied, bad path, not a repository) is
caught: `findSourceFile` answers `none` ("no file found") and
`analyzeBlameResults` answers the empty sequence.  Both embedded
functions are total, so no failure propagates to the caller. -/
theorem claim_C9 (err : List Char) (nsStr projectRoot : List Char)
    (startDay oneYearDay : Nat) :
    findSourceFile (Except.error err) nsStr projectRoot = none
    ∧ analyzeBlameResults (Except.error err) startDay oneYearDay = [] :=
  ⟨rfl, rfl⟩

/-! ## Method locator lemmas -/

theorem firstMatchIdx_eq_none {p : List Char → Bool} {ls : List (List Char)}
    (h : ∀ l ∈ ls, p l = false) : firstMatchIdx p ls = none := by
  induction ls with
  | nil => rfl
  | cons l ls ih =>
    have hl : p l = false := h l (List.mem_cons_self l ls)
    simp only [firstMatchIdx, hl]
    rw [ih (fun x hx => h x (List.mem_cons_of_mem l hx))]
    rfl

theorem firstMatchIdx_lt_length {p : List Char → Bool} {ls : List (List Char)} {d : Nat}
    (h : firstMatchIdx p ls = some d) : d < ls.length := by
  induction ls generalizing d with
  | nil => simp [firstMatchIdx] at h
  | cons l ls ih =>
    by_cases hl : p l = true
    · simp only [firstMatchIdx, hl, if_true] at h
      cases h
      simp
    · have hl' : p l = false := Bool.eq_false_iff.mpr hl
      simp only [firstMatchIdx, hl', Bool.false_eq_true, if_false, Option.map_eq_some'] at h
      rcases h with ⟨d', hd', rfl⟩
      have := ih hd'
      simp
      omega

/-- Claim C10: when the resolved path does not exist on disk the locator
returns `none` without raising, the same outcome as when the signature
pattern matches no line of an existing file. -/
theorem claim_C10 (methodName content : List Char)
    (hnone : ∀ l ∈ splitLines content, sigMatchLine methodName l = false) :
    findMethodLineRange none methodName = none
    ∧ findMethodLineRange (some content) methodName = none := by
  refine ⟨rfl, ?_⟩
  simp only [findMethodLineRange, firstMatchIdx_eq_none hnone]

/-- Witness for C10: a missing file and a file whose lines never match
the pattern for `Foo`. -/
theorem claim_C10_witness :
    findMethodLineRange none ("Foo".toList) = none
    ∧ findMethodLineRange (some ("no method here".toList)) ("Foo".toList) = none :=
  claim_C10 ("Foo".toList) ("no method here".toList) (by decide)

theorem goBrace_none {count : Int} (hc : count ≤ 0) (idx : Nat) (ls : List (List Char))
    (h : allPrefixNonpos count (ls.map braceDelta) = true) :
    goBrace count false idx ls = none := by
  induction ls generalizing count idx with
  | nil => rfl
  | cons l ls ih =>
    simp only [List.map_cons, allPrefixNonpos, Bool.and_eq_true, decide_eq_true_eq] at h
    rcases h with ⟨hc1, h2⟩
    simp only [goBrace, decide_eq_false (not_lt.mpr hc1), Bool.or_false, Bool.false_and,
      Bool.false_eq_true, if_false]
    exact ih hc1 (idx + 1)  h2

/-- Claim C1 (amended): when the signature pattern first matches at line
index `d` but, scanning from that line onward, the per-line running
brace counter never becomes positive, the loop never breaks,
`methodEndLine` keeps its initial value `methodStartLine`, and
`findMethodLineRange` returns the degenerate 1-based range
`{start := d + 1, end := d + 1}` — a present range, not absent. -/
theorem claim_C1 (content methodName : List Char) (d : Nat)
    (hidx : firstMatchIdx (sigMatchLine methodName) (splitLines content) = some d)
    (hbrace : allPrefixNonpos 0 (((splitLines content).drop d).map braceDelta) = true) :
    findMethodLineRange (some content) methodName
      = some { start := d + 1, stop := d + 1 } := by
  have hlt := firstMatchIdx_lt_length hidx
  have hend : findEndLine d (splitLines content) = d := by
    unfold findEndLine
    rw [goBrace_none (le_refl 0) d ((splitLines content).drop d) hbrace]
  simp only [findMethodLineRange, hidx]
  rw [hend]
  have hmin : (d + 1).min (splitLines content).length = d + 1 := Nat.min_eq_left hlt
  rw [hmin]

/-- Claim C1 counterexample: in the single-line file `" void Foo();"` (an
abstract-style stub with a trailing semicolon and no braces) the
pattern for `Foo` matches line 0 and the brace counter never becomes
positive, yet `findMethodLineRange` returns the range `{1, 1}` rather
than the absent result the claim requires. -/
theorem claim_C1_counterexample :
    firstMatchIdx (sigMatchLine ("Foo".toList)) (splitLines (" void Foo();".toList)) = some 0
    ∧ allPrefixNonpos 0 (((splitLines (" void Foo();".toList)).drop 0).map braceDelta) = true
    ∧ findMethodLineRange (some (" void Foo();".toList)) ("Foo".toList)
        = some { start := 1, stop := 1 }
    ∧ some { start := 1, stop := 1 } ≠ (none : Option LineRange) :=
  ⟨by decide, by decide, by decide, by decide⟩

/-- Witness for C1 at a two-line file whose second line is a braceless
expression-bodied declaration. -/
theorem claim_C1_witness :
    findMethodLineRange (some ("int x;\n bool Bar() => y;".toList)) ("Bar".toList)
      = some { start := 2, stop := 2 } :=
  claim_C1 ("int x;\n bool Bar() => y;".toList) ("Bar".toList) 1 (by decide) (by decide)

/-! ## PR extraction lemmas -/

theorem findFirstMatch_isSome_append (matchAt : List Char → Option (List Char))
    (pre : List Char) {suf v : List Char} (h : matchAt suf = some v) :
    (findFirstMatch matchAt (pre ++ suf)).isSome = true := by
  induction pre with
  | nil =>
    cases suf with
    | nil => simp [findFirstMatch, h]
    | cons c cs => simp [findFirstMatch, h]
  | cons c pre ih =>
    simp only [List.cons_append, findFirstMatch]
    cases hm : matchAt (c :: (pre ++ suf)) with
    | some v' => rfl
    | none => exact ih

theorem parenHashAt_occur (post : List Char) :
    parenHashAt ('(' :: '#' :: '4' :: '2' :: ')' :: post) = some ['4', '2'] := by
  simp [parenHashAt, List.isPrefixOf, List.takeWhile]

theorem hasFactor_exists {pat m : List Char} (h : hasFactor pat m = true) :
    ∃ pre post, m = pre ++ (pat ++ post) := by
  induction m with
  | nil =>
    have hp : pat = [] := by
      cases pat with
      | nil => rfl
      | cons c t => simp [hasFactor] at h
    subst hp
    exact ⟨[], [], rfl⟩
  | cons c cs ih =>
    simp only [hasFactor, Bool.or_eq_true] at h
    rcases h with h | h
    · rcases List.isPrefixOf_iff_prefix.mp h with ⟨post, hpost⟩
      exact ⟨[], post, hpost.symm⟩
    · rcases ih h with ⟨pre, post, rfl⟩
      exact ⟨c :: pre, post, rfl⟩

/-- Claim C5 (amended): the PR patterns are tried in the fixed priority
order with the first match winning.  Consequently every message
containing both `(#42)` and `(PR 99)` as substrings — in either order
— yields a github source, because the message matches rule 1 or
rule 2, both github; the number is 42 only when no
`Merge pull request #<digits>` occurrence preempts rule 1 and `(#42)`
is the leftmost `(#<digits>)` occurrence; and a message in which none
of the five patterns matches yields no PR reference. -/
theorem claim_C5 :
    (∀ m : List Char,
      hasFactor ("(#42)".toList) m = true →
      hasFactor ("(PR 99)".toList) m = true →
      (extractPRNumber m).2 = some PRSource.github)
    ∧ (∀ m : List Char,
        findFirstMatch (litDigitsAt ("Merge pull request #".toList)) m = none →
        findFirstMatch parenHashAt m = some ("42".toList) →
        extractPRNumber m = (some ("42".toList), some PRSource.github))
    ∧ (∀ m : List Char,
        findFirstMatch (litDigitsAt ("Merge pull request #".toList)) m = none →
        findFirstMatch parenHashAt m = none →
        findFirstMatch parenPRAt m = none →
        findFirstMatch (litDigitsAt ("#".toList)) m = none →
        findFirstMatch (litWsDigitsAt ("PR".toList)) m = none →
        extractPRNumber m = (none, none)) := by
  refine ⟨?_, ?_, ?_⟩
  · intro m h42 h99
    rcases hasFactor_exists h42 with ⟨pre, post, rfl⟩
    have hocc : parenHashAt (("(#42)".toList) ++ post) = some ("42".toList) :=
      parenHashAt_occur post
    have hsome := findFirstMatch_isSome_append parenHashAt pre hocc
    rcases Option.isSome_iff_exists.mp hsome with ⟨v, hv⟩
    cases h1 : findFirstMatch (litDigitsAt ("Merge pull request #".toList))
        (pre ++ (("(#42)".toList) ++ post)) with
    | some n =>
      simp only [extractPRNumber]
      rw [h1]
    | none =>
      simp only [extractPRNumber]
      rw [h1, hv]
  · intro m h1 h2
    simp only [extractPRNumber]
    rw [h1, h2]
  · intro m h1 h2 h3 h4 h5
    simp only [extractPRNumber]
    rw [h1, h2, h3, h4, h5]

/-- Claim C5 counterexample: `Merge pull request #7 (#42) (PR 99)` contains
both `(#42)` and `(PR 99)` as substrings, yet the extraction yields
number 7 (rule 1 wins), not the claimed 42. -/
theorem claim_C5_counterexample :
    hasFactor ("(#42)".toList) ("Merge pull request #7 (#42) (PR 99)".toList) = true
    ∧ hasFactor ("(PR 99)".toList) ("Merge pull request #7 (#42) (PR 99)".toList) = true
    ∧ extractPRNumber ("Merge pull request #7 (#42) (PR 99)".toList)
        = (some ("7".toList), some PRSource.github)
    ∧ (some ("7".toList) : Option (List Char)) ≠ some ("42".toList) :=
  ⟨by decide, by decide, by decide, by decide⟩

/-- Witness for C5 at concrete messages; the first instantiates the
containment conjunct on a message in which `(PR 99)` precedes
`(#42)`. -/
theorem claim_C5_witness :
    (extractPRNumber ("(PR 99) (#42) Merge pull request #3".toList)).2
      = some PRSource.github
    ∧ extractPRNumber ("see (#42) and (PR 99)".toList)
        = (some ("42".toList), some PRSource.github)
    ∧ extractPRNumber ("no reference".toList) = (none, none) :=
  ⟨claim_C5.1 ("(PR 99) (#42) Merge pull request #3".toList) (by decide) (by decide),
   claim_C5.2.1 ("see (#42) and (PR 99)".toList) (by decide) (by decide),
   claim_C5.2.2 ("no reference".toList) (by decide) (by decide) (by decide) (by decide) (by decide)⟩

/-! ## Blame parser lemmas -/

theorem takeWhile_append_of_all {p : Char → Bool} {l : List Char} (h : l.all p = true)
    (r : List Char) : (l ++ r).takeWhile p = l ++ r.takeWhile p := by
  induction l with
  | nil => rfl
  | cons c t ih =>
    simp only [List.all_cons, Bool.and_eq_true] at h
    simp [List.takeWhile_cons, h.1, ih h.2]

theorem contains_append_eq (l₁ l₂ : List Char) (a : Char) :
    (l₁ ++ l₂).contains a = (l₁.contains a || l₂.contains a) := by
  induction l₁ with
  | nil => rfl
  | cons c t ih => simp [List.contains_cons, ih, Bool.or_assoc]

theorem no_tab_of_hex {h : List Char} (hx : h.all isHexLower = true) :
    h.contains '\t' = false := by
  induction h with
  | nil => rfl
  | cons c t ih =>
    simp only [List.all_cons, Bool.and_eq_true] at hx
    have hc : ('\t' == c) = false := by
      rw [beq_eq_false_iff_ne]
      intro heq
      rw [← heq] at hx
      exact absurd hx.1 (by decide)
    rw [List.contains_cons, hc, Bool.false_or]
    exact ih hx.2

theorem jsWS_eq_false_of_hex {c : Char} (h : isHexLower c = true) : jsWS c = false := by
  rcases Bool.eq_false_or_eq_true (jsWS c) with hw | hw
  · exfalso
    unfold jsWS at hw
    simp only [Bool.or_eq_true, beq_iff_eq] at hw
    rcases hw with ((((rfl | rfl) | rfl) | rfl) | rfl) | rfl <;> revert h <;> decide
  · exact hw

theorem hashLineHead_header (h : List Char) (hne : h ≠ []) (hx : h.all isHexLower = true) :
    hashLineHead (h ++ (" 1 1 1".toList)) = some h := by
  unfold hashLineHead
  rw [takeWhile_append_of_all hx]
  have h1 : (" 1 1 1".toList).takeWhile isHexLower = [] := by decide
  rw [h1, List.append_nil]
  have hemp : h.isEmpty = false := by
    cases h
    · exact absurd rfl hne
    · rfl
  have hdrop : (h ++ (" 1 1 1".toList)).drop h.length = (" 1 1 1".toList) := List.drop_left h _
  have htab : (h ++ (" 1 1 1".toList)).contains '\t' = false := by
    rw [contains_append_eq, no_tab_of_hex hx]
    decide
  simp [hemp, hdrop, htab]
  exact ⟨by decide, fun hm => absurd (List.all_eq_true.mp hx _ hm) (by decide)⟩

theorem hashLineHead_au (rest : List Char) : hashLineHead ('a' :: 'u' :: rest) = none := by
  have h1 : isHexLower 'a' = true := by decide
  have h2 : isHexLower 'u' = false := by decide
  have h3 : jsWS 'u' = false := by decide
  simp [hashLineHead, List.takeWhile_cons, h1, h2, h3]

theorem hashLineHead_s (rest : List Char) : hashLineHead ('s' :: rest) = none := by
  have h1 : isHexLower 's' = false := by decide
  simp [hashLineHead, List.takeWhile_cons, h1]

theorem not_au_lit_prefix_header (w h : List Char) (hx : h.all isHexLower = true) :
    (('a' :: 'u' :: w).isPrefixOf (h ++ (" 1 1 1".toList))) = false := by
  match h with
  | [] => simp [List.isPrefixOf]
  | [c] => simp [List.isPrefixOf]
  | c1 :: c2 :: t =>
    have h2 : isHexLower c2 = true := by
      simp only [List.all_cons, Bool.and_eq_true] at hx
      exact hx.2.1
    have hu : ('u' == c2) = false := by
      rw [beq_eq_false_iff_ne]
      intro heq
      rw [← heq] at h2
      exact absurd h2 (by decide)
    simp [List.isPrefixOf, hu]

theorem not_s_lit_prefix_header (w h : List Char) (hx : h.all isHexLower = true) :
    (('s' :: w).isPrefixOf (h ++ (" 1 1 1".toList))) = false := by
  match h with
  | [] => simp [List.isPrefixOf]
  | c :: t =>
    have h2 : isHexLower c = true := by
      simp only [List.all_cons, Bool.and_eq_true] at hx
      exact hx.1
    have hs : ('s' == c) = false := by
      rw [beq_eq_false_iff_ne]
      intro heq
      rw [← heq] at h2
      exact absurd h2 (by decide)
    simp [List.isPrefixOf, hs]

theorem processLine_author (s o : Nat) (st : BlameState) (a : List Char) :
    processLine s o st (("author ".toList) ++ a)
      = some (updateCurrent st (authorUpdate a)) := by
  have hws : ((("author ".toList) ++ a).all jsWS) = false := by
    simp [List.all_cons, jsWS]
  have hhash : hashLineHead (("author ".toList) ++ a) = none :=
    hashLineHead_au (("thor ".toList) ++ a)
  have hpre : (("author ".toList).isPrefixOf (("author ".toList) ++ a)) = true :=
    List.isPrefixOf_iff_prefix.mpr (List.prefix_append _ _)
  have hdrop : (("author ".toList) ++ a).drop 7 = a := List.drop_left ("author ".toList) a
  simp only [processLine, hws, Bool.false_eq_true, if_false, hashStep, hhash, hpre, if_true,
    hdrop]

theorem processLine_authorTime (s o : Nat) (st : BlameState) (payload : List Char) :
    processLine s o st (("author-time ".toList) ++ payload)
      = match st.current with
        | none => some st
        | some _ =>
          match parseIntPrefix payload with
          | none => none
          | some t => some (updateCurrent st (timeUpdate t)) := by
  have hws : ((("author-time ".toList) ++ payload).all jsWS) = false := by
    simp [List.all_cons, jsWS]
  have hhash : hashLineHead (("author-time ".toList) ++ payload) = none :=
    hashLineHead_au (("thor-time ".toList) ++ payload)
  have hnpre : (("author ".toList).isPrefixOf (("author-time ".toList) ++ payload)) = false := by
    simp [List.isPrefixOf]
  have hpre : (("author-time ".toList).isPrefixOf (("author-time ".toList) ++ payload)) = true :=
    List.isPrefixOf_iff_prefix.mpr (List.prefix_append _ _)
  have hdrop : (("author-time ".toList) ++ payload).drop 12 = payload :=
    List.drop_left ("author-time ".toList) payload
  simp only [processLine, hws, Bool.false_eq_true, if_false, hashStep, hhash, hnpre, hpre,
    if_true, hdrop]

theorem processLine_summary (s o : Nat) (st : BlameState) (msg : List Char) :
    processLine s o st (("summary ".toList) ++ msg)
      = some (updateCurrent st (summaryUpdate s o msg)) := by
  have hws : ((("summary ".toList) ++ msg).all jsWS) = false := by
    simp [List.all_cons, jsWS]
  have hhash : hashLineHead (("summary ".toList) ++ msg) = none :=
    hashLineHead_s (("ummary ".toList) ++ msg)
  have hn1 : (("author ".toList).isPrefixOf (("summary ".toList) ++ msg)) = false := by
    simp [List.isPrefixOf]
  have hn2 : (("author-time ".toList).isPrefixOf (("summary ".toList) ++ msg)) = false := by
    simp [List.isPrefixOf]
  have hpre : (("summary ".toList).isPrefixOf (("summary ".toList) ++ msg)) = true :=
    List.isPrefixOf_iff_prefix.mpr (List.prefix_append _ _)
  have hdrop : (("summary ".toList) ++ msg).drop 8 = msg := List.drop_left ("summary ".toList) msg
  simp only [processLine, hws, Bool.false_eq_true, if_false, hashStep, hhash, hn1, hn2, hpre,
    if_true, hdrop]

theorem processLine_header (s o : Nat) (st : BlameState) (h : List Char)
    (hne : h ≠ []) (hx : h.all isHexLower = true) :
    processLine s o st (h ++ (" 1 1 1".toList))
      = some (if st.records.any (fun p => p.1 == h) then st
              else { records := st.records ++ [(h, initRecord h)], current := some h }) := by
  have hws : ((h ++ (" 1 1 1".toList)).all jsWS) = false := by
    match h, hne with
    | c :: t, _ =>
      simp only [List.cons_append, List.all_cons]
      rw [jsWS_eq_false_of_hex (by
        simp only [List.all_cons, Bool.and_eq_true] at hx
        exact hx.1)]
      rfl
  have hhash := hashLineHead_header h hne hx
  have hn1 : (("author ".toList).isPrefixOf (h ++ (" 1 1 1".toList))) = false :=
    not_au_lit_prefix_header ("thor ".toList) h hx
  have hn2 : (("author-time ".toList).isPrefixOf (h ++ (" 1 1 1".toList))) = false :=
    not_au_lit_prefix_header ("thor-time ".toList) h hx
  have hn3 : (("summary ".toList).isPrefixOf (h ++ (" 1 1 1".toList))) = false :=
    not_s_lit_prefix_header ("ummary ".toList) h hx
  simp only [processLine, hws, Bool.false_eq_true, if_false, hashStep, hhash, hn1, hn2, hn3]

theorem processLines_append (s o : Nat) (st : BlameState) (ls₁ ls₂ : List (List Char)) :
    processLines s o st (ls₁ ++ ls₂)
      = match processLines s o st ls₁ with
        | none => none
        | some st' => processLines s o st' ls₂ := by
  induction ls₁ generalizing st with
  | nil => rfl
  | cons l ls ih =>
    simp only [List.cons_append, processLines]
    cases processLine s o st l with
    | none => rfl
    | some st' => exact ih st'

theorem setRecord_append_fresh (R : List (List Char × GitBlameAnalysis)) (h : List Char)
    (r : GitBlameAnalysis) (f : GitBlameAnalysis → GitBlameAnalysis)
    (hfresh : R.any (fun p => p.1 == h) = false) :
    setRecord h f (R ++ [(h, r)]) = R ++ [(h, f r)] := by
  induction R with
  | nil => simp [setRecord]
  | cons p R ih =>
    simp only [List.any_cons, Bool.or_eq_false_iff] at hfresh
    simp only [setRecord] at ih
    simp only [List.cons_append, setRecord, List.map_cons, hfresh.1, Bool.false_eq_true,
      if_false]
    rw [ih hfresh.2]

theorem processBlock (s o : Nat) (st : BlameState) (b : BlameBlock)
    (hgood : goodBlock b)
    (hfresh : st.records.any (fun p => p.1 == b.hash) = false) :
    processLines s o st (blockLines b)
      = some { records := st.records ++ [(b.hash, blockRec s o b)],
               current := some b.hash } := by
  obtain ⟨hne, hx, hparse⟩ := hgood
  rcases Option.isSome_iff_exists.mp hparse with ⟨t, ht⟩
  simp only [blockLines, processLines, processLine_header s o st b.hash hne hx, hfresh,
    Bool.false_eq_true, if_false, processLine_author, processLine_authorTime,
    processLine_summary, updateCurrent, ht, setRecord_append_fresh _ _ _ _ hfresh,
    blockRec, Option.getD_some]

theorem blocksRun (s o : Nat) (blocks : List BlameBlock) (st : BlameState)
    (hgood : ∀ b ∈ blocks, goodBlock b)
    (hdisj : ∀ b ∈ blocks, st.records.any (fun p => p.1 == b.hash) = false)
    (hdist : blocks.Pairwise (fun x y => x.hash ≠ y.hash)) :
    ∃ cur, processLines s o st (blocksLines blocks)
      = some { records := st.records ++ blocks.map (fun b => (b.hash, blockRec s o b)),
               current := cur } := by
  induction blocks generalizing st with
  | nil => exact ⟨st.current, by simp [blocksLines, processLines]⟩
  | cons b bs ih =>
    have hb := hgood b (List.mem_cons_self b bs)
    have hfresh := hdisj b (List.mem_cons_self b bs)
    rcases List.pairwise_cons.mp hdist with ⟨hbne, hdist'⟩
    have hstep := processBlock s o st b hb hfresh
    have hdisj' : ∀ b' ∈ bs,
        ((st.records ++ [(b.hash, blockRec s o b)]).any (fun p => p.1 == b'.hash)) = false := by
      intro b' hb'
      rw [List.any_append]
      have h1 := hdisj b' (List.mem_cons_of_mem b hb')
      have h2 : ((b.hash == b'.hash) : Bool) = false :=
        beq_eq_false_iff_ne.mpr (hbne b' hb')
      simp [h1, h2]
    rcases ih { records := st.records ++ [(b.hash, blockRec s o b)], current := some b.hash }
        (fun b' hb' => hgood b' (List.mem_cons_of_mem b hb')) hdisj' hdist' with ⟨cur, hcur⟩
    refine ⟨cur, ?_⟩
    rw [show blocksLines (b :: bs) = blockLines b ++ blocksLines bs from rfl,
      processLines_append, hstep]
    dsimp only at hcur ⊢
    rw [hcur]
    simp [List.append_assoc]

theorem blockRec_commitDate (s o : Nat) (b : BlameBlock) :
    (blockRec s o b).commitDate = some ((parseIntPrefix b.timePayload).getD 0 / 86400) := by
  cases hpr : (extractPRNumber b.summary).1 with
  | none => simp [blockRec, summaryUpdate, timeUpdate, authorUpdate, hpr]
  | some n =>
    by_cases hn : n.isEmpty = true <;>
      simp [blockRec, summaryUpdate, timeUpdate, authorUpdate, hpr, hn]

theorem blockRec_inDateRange (s o : Nat) (b : BlameBlock) :
    (blockRec s o b).inDateRange
      = decide (s ≤ (parseIntPrefix b.timePayload).getD 0 / 86400) := by
  cases hpr : (extractPRNumber b.summary).1 with
  | none => simp [blockRec, summaryUpdate, timeUpdate, authorUpdate, hpr]
  | some n =>
    by_cases hn : n.isEmpty = true <;>
      simp [blockRec, summaryUpdate, timeUpdate, authorUpdate, hpr, hn]

/-- Claim C4: over input in the incremental blame block format, every record
of the analyzer's result carries a commit day `d`, and its
`inDateRange` flag is true exactly when `d` is on or after the start
day; in particular a commit dated exactly on the start day is
classified in range and one dated the day before is not. -/
theorem claim_C4 (blocks : List BlameBlock) (startDay oneYearDay : Nat)
    (hgood : ∀ b ∈ blocks, goodBlock b)
    (hdist : blocks.Pairwise (fun x y => x.hash ≠ y.hash)) :
    ∀ r ∈ analyzeBlameLines (blocksLines blocks) startDay oneYearDay,
      ∃ d, r.commitDate = some d ∧ (r.inDateRange = true ↔ startDay ≤ d) := by
  intro r hr
  obtain ⟨cur, hrun⟩ := blocksRun startDay oneYearDay blocks { records := [], current := none }
    hgood (fun b _ => rfl) hdist
  unfold analyzeBlameLines at hr
  rw [hrun] at hr
  rw [(sortDescBy_perm dateKey _).mem_iff] at hr
  have hr2 := (List.mem_filter.mp hr).1
  simp only [blameValues, List.nil_append, List.map_map, List.mem_map, Function.comp] at hr2
  rcases hr2 with ⟨b, hb, rfl⟩
  refine ⟨(parseIntPrefix b.timePayload).getD 0 / 86400, blockRec_commitDate _ _ _, ?_⟩
  rw [blockRec_inDateRange]
  exact decide_eq_true_iff

theorem extractPRNumber_pair (m : List Char) :
    ((extractPRNumber m).1).isSome = ((extractPRNumber m).2).isSome := by
  unfold extractPRNumber
  cases findFirstMatch (litDigitsAt ("Merge pull request #".toList)) m <;>
    cases findFirstMatch parenHashAt m <;>
      cases findFirstMatch parenPRAt m <;>
        cases findFirstMatch (litDigitsAt ("#".toList)) m <;>
          cases findFirstMatch (litWsDigitsAt ("PR".toList)) m <;> rfl

theorem preservesRec_author (a : List Char) : PreservesRec (authorUpdate a) :=
  fun _ => ⟨rfl, fun h => h⟩

theorem preservesRec_time (t : Nat) : PreservesRec (timeUpdate t) :=
  fun _ => ⟨rfl, fun h => h⟩

theorem preservesRec_summary (s o : Nat) (msg : List Char) :
    PreservesRec (summaryUpdate s o msg) := by
  intro r
  constructor
  · cases hpr : (extractPRNumber msg).1 with
    | none => simp [summaryUpdate, hpr]
    | some n =>
      by_cases hn : n.isEmpty = true <;> simp [summaryUpdate, hpr, hn]
  · intro h
    cases hpr : (extractPRNumber msg).1 with
    | none =>
      simp only [summaryUpdate, hpr]
      exact h
    | some n =>
      by_cases hn : n.isEmpty = true
      · simp [summaryUpdate, hpr, hn]
        exact h
      · have hp := extractPRNumber_pair msg
        rw [hpr] at hp
        simp [summaryUpdate, hpr, hn]
        exact hp.symm

theorem setRecord_map_fst (h : List Char) (f : GitBlameAnalysis → GitBlameAnalysis)
    (rs : List (List Char × GitBlameAnalysis)) :
    (setRecord h f rs).map Prod.fst = rs.map Prod.fst := by
  induction rs with
  | nil => rfl
  | cons p rs ih =>
    simp only [setRecord, List.map_cons] at ih ⊢
    by_cases hp : (p.1 == h) = true
    · rw [if_pos hp, ih]
    · rw [if_neg hp, ih]

theorem updateCurrent_StInv {st : BlameState} {f : GitBlameAnalysis → GitBlameAnalysis}
    (hf : PreservesRec f) (hst : StInv st) : StInv (updateCurrent st f) := by
  unfold updateCurrent
  cases st.current with
  | none => exact hst
  | some h =>
    refine ⟨?_, ?_⟩
    · show ((setRecord h f st.records).map Prod.fst).Nodup
      rw [setRecord_map_fst]
      exact hst.1
    · intro p hp
      rcases List.mem_map.mp hp with ⟨q, hq, rfl⟩
      rcases hst.2 q hq with ⟨hhash, hpr⟩
      by_cases hcase : (q.1 == h) = true
      · simp only [hcase, if_true]
        exact ⟨(hf q.2).1.trans hhash, (hf q.2).2 hpr⟩
      · simp only [hcase, Bool.false_eq_true, if_false]
        exact ⟨hhash, hpr⟩

theorem hashStep_StInv (st : BlameState) (l : List Char) (hst : StInv st) :
    StInv (hashStep st l) := by
  unfold hashStep
  cases hashLineHead l with
  | none => exact hst
  | some h =>
    by_cases hmem : (st.records.any (fun p => p.1 == h)) = true
    · simp only [hmem, if_true]
      exact hst
    · simp only [hmem, Bool.false_eq_true, if_false]
      have hnotin : h ∉ st.records.map Prod.fst := by
        intro hin
        rcases List.mem_map.mp hin with ⟨q, hq, rfl⟩
        exact hmem (List.any_eq_true.mpr ⟨q, hq, by simp⟩)
      refine ⟨?_, ?_⟩
      · rw [List.map_append]
        have hone : (List.map Prod.fst [(h, initRecord h)]) = [h] := rfl
        rw [hone, List.nodup_append]
        refine ⟨hst.1, List.nodup_singleton h, ?_⟩
        intro a ha hb
        rw [List.mem_singleton] at hb
        subst hb
        exact hnotin ha
      · intro p hp
        rcases List.mem_append.mp hp with hp | hp
        · exact hst.2 p hp
        · rw [List.mem_singleton] at hp
          subst hp
          exact ⟨rfl, rfl⟩

theorem processLine_StInv {s o : Nat} {st : BlameState} {l : List Char} {st' : BlameState}
    (hst : StInv st) (h : processLine s o st l = some st') : StInv st' := by
  have hst1 : StInv (hashStep st l) := hashStep_StInv st l hst
  unfold processLine at h
  by_cases h0 : (l.all jsWS) = true
  · rw [if_pos h0] at h
    cases h
    exact hst
  · rw [if_neg h0] at h
    dsimp only at h
    by_cases h1 : (("author ".toList).isPrefixOf l) = true
    · rw [if_pos h1] at h
      cases h
      exact updateCurrent_StInv (preservesRec_author _) hst1
    · rw [if_neg h1] at h
      by_cases h2 : (("author-time ".toList).isPrefixOf l) = true
      · rw [if_pos h2] at h
        cases hcur : (hashStep st l).current with
        | none =>
          rw [hcur] at h
          cases h
          exact hst1
        | some hh =>
          rw [hcur] at h
          cases hparse : parseIntPrefix (l.drop 12) with
          | none =>
            rw [hparse] at h
            cases h
          | some t =>
            rw [hparse] at h
            cases h
            exact updateCurrent_StInv (preservesRec_time _) hst1
      · rw [if_neg h2] at h
        by_cases h3 : (("summary ".toList).isPrefixOf l) = true
        · rw [if_pos h3] at h
          cases h
          exact updateCurrent_StInv (preservesRec_summary _ _ _) hst1
        · rw [if_neg h3] at h
          cases h
          exact hst1

theorem processLines_StInv {s o : Nat} {st : BlameState} {ls : List (List Char)}
    {st' : BlameState} (hst : StInv st) (h : processLines s o st ls = some st') :
    StInv st' := by
  induction ls generalizing st with
  | nil =>
    cases h
    exact hst
  | cons l ls ih =>
    unfold processLines at h
    cases hl : processLine s o st l with
    | none =>
      rw [hl] at h
      cases h
    | some st1 =>
      rw [hl] at h
      exact ih (processLine_StInv hst hl) h

theorem StInv_init : StInv { records := [], current := none } :=
  ⟨List.nodup_nil, fun p hp => absurd hp (List.not_mem_nil p)⟩

theorem records_hash_pairwise {st : BlameState} (hst : StInv st) :
    (st.records.map Prod.snd).Pairwise (fun a b => a.commitHash ≠ b.commitHash) := by
  have h1 : st.records.Pairwise (fun p q => p.1 ≠ q.1) := by
    have h0 := hst.1
    rw [List.Nodup, List.pairwise_map] at h0
    exact h0
  rw [List.pairwise_map]
  refine h1.imp_of_mem ?_
  intro p q hp hq hne heq
  rw [(hst.2 p hp).1, (hst.2 q hq).1] at heq
  exact hne heq

/-- Claim C3 (amended): the first occurrence of each commit hash creates its
record and each hash appears at most once in the result (the records
of any analysis have pairwise distinct hashes); a repeated hash line,
however, leaves the parser state — including the current-record
pointer — entirely unchanged, so metadata lines parsed after it are
not ignored: they still mutate the most recently created record. -/
theorem claim_C3 :
    (∀ (ls : List (List Char)) (startDay oneYearDay : Nat),
      (analyzeBlameLines ls startDay oneYearDay).Pairwise
        (fun a b => a.commitHash ≠ b.commitHash))
    ∧ ∀ (startDay oneYearDay : Nat) (st : BlameState) (h : List Char),
        h ≠ [] → h.all isHexLower = true →
        st.records.any (fun p => p.1 == h) = true →
        processLine startDay oneYearDay st (h ++ (" 1 1 1".toList)) = some st := by
  constructor
  · intro ls s o
    unfold analyzeBlameLines
    cases hrun : processLines s o { records := [], current := none } ls with
    | none => exact List.Pairwise.nil
    | some st =>
      have hst : StInv st := processLines_StInv StInv_init hrun
      have hp := records_hash_pairwise hst
      have hfilt : ((blameValues st).filter (fun c => c.withinOneYear)).Pairwise
          (fun a b => a.commitHash ≠ b.commitHash) :=
        List.Pairwise.sublist (List.filter_sublist _) hp
      exact ((sortDescBy_perm dateKey _).pairwise_iff
        (fun hab heq => hab heq.symm)).mpr hfilt
  · intro s o st h hne hx hmem
    rw [processLine_header s o st h hne hx, if_pos hmem]

/-- Claim C3 counterexample: after the repeated `aaaa` header line the
parser's current record still aliases the `aaaa` record, so the later
`author Bob` metadata line overwrites the first-seen author `Alice`
— a metadata line parsed after a repeated hash line does change an
already-created record. -/
theorem claim_C3_counterexample :
    analyzeBlameLines
      [("aaaa 1 1 1".toList), ("author Alice".toList), ("author-time 0".toList),
       ("summary m".toList), ("aaaa 1 1 1".toList), ("author Bob".toList)] 0 0
      = [{ commitHash := ("aaaa".toList), author := ("Bob".toList), commitDate := some 0,
           commitMessage := ("m".toList), prNumber := none, prSource := none, prUrl := none,
           inDateRange := true, withinOneYear := true }]
    ∧ ("Bob".toList) ≠ ("Alice".toList) :=
  ⟨by decide, by decide⟩

/-- Witness for C3: a repeated hash line over a state that has already
seen the hash leaves the state unchanged. -/
theorem claim_C3_witness :
    processLine 0 0 demoBlameState (("aaaa".toList) ++ (" 1 1 1".toList))
      = some demoBlameState :=
  claim_C3.2 0 0 demoBlameState ("aaaa".toList) (by decide) (by decide) (by decide)

/-- Witness for C4: the demo block's author time is day 5; with
`startDay = 5` the produced record is exactly on the boundary and the
date-range iff certifies it in range. -/
theorem claim_C4_witness :
    ∃ d, (blockRec 5 0 prDemoBlock).commitDate = some d
      ∧ ((blockRec 5 0 prDemoBlock).inDateRange = true ↔ 5 ≤ d) :=
  claim_C4 [prDemoBlock] 5 0 (by decide) (by decide)
    (blockRec 5 0 prDemoBlock) (by decide)

/-- Claim C6: the analyzer's result is exactly the parsed records (discovery
order) whose retention flag `withinOneYear` is true, ordered
non-increasing by commit date, with records of equal date kept in
their discovery order (the filtered sublist is unchanged on every
equal-date fibre); when parsing throws, the result is empty. -/
theorem claim_C6 (ls : List (List Char)) (startDay oneYearDay : Nat) :
    (analyzeBlameLines ls startDay oneYearDay).Pairwise
      (fun a b => dateKey b ≤ dateKey a)
    ∧ (processLines startDay oneYearDay { records := [], current := none } ls = none →
        analyzeBlameLines ls startDay oneYearDay = [])
    ∧ ∀ st, processLines startDay oneYearDay { records := [], current := none } ls = some st →
        (analyzeBlameLines ls startDay oneYearDay).Perm
          ((blameValues st).filter (fun c => c.withinOneYear))
        ∧ ∀ d : Nat,
            (analyzeBlameLines ls startDay oneYearDay).filter (fun r => dateKey r == d)
              = ((blameValues st).filter (fun c => c.withinOneYear)).filter
                  (fun r => dateKey r == d) := by
  refine ⟨?_, ?_, ?_⟩
  · unfold analyzeBlameLines
    cases processLines startDay oneYearDay { records := [], current := none } ls with
    | none => exact List.Pairwise.nil
    | some st => exact sortDescBy_pairwise dateKey _
  · intro hrun
    unfold analyzeBlameLines
    rw [hrun]
  · intro st hrun
    unfold analyzeBlameLines
    rw [hrun]
    exact ⟨sortDescBy_perm dateKey _, fun d => filter_sortDescBy dateKey d _⟩

/-- Witness for C6: the permutation and stability conclusions at the
concrete one-block input. -/
theorem claim_C6_witness :
    (analyzeBlameLines (blocksLines [prDemoBlock]) 0 0).Perm
      ((blameValues { records := [(("aaaa".toList), blockRec 0 0 prDemoBlock)],
                      current := some ("aaaa".toList) }).filter (fun c => c.withinOneYear)) :=
  ((claim_C6 (blocksLines [prDemoBlock]) 0 0).2.2
    { records := [(("aaaa".toList), blockRec 0 0 prDemoBlock)],
      current := some ("aaaa".toList) } (by decide)).1

/-- Claim C8: a PR number is extracted exactly together with a PR source,
and every record produced by the analyzer has `prSource` present
exactly when `prNumber` is present. -/
theorem claim_C8 :
    (∀ m : List Char, ((extractPRNumber m).1).isSome = ((extractPRNumber m).2).isSome)
    ∧ ∀ (ls : List (List Char)) (startDay oneYearDay : Nat),
        ∀ r ∈ analyzeBlameLines ls startDay oneYearDay,
          r.prNumber.isSome = r.prSource.isSome := by
  refine ⟨extractPRNumber_pair, ?_⟩
  intro ls s o r hr
  unfold analyzeBlameLines at hr
  cases hrun : processLines s o { records := [], current := none } ls with
  | none =>
    rw [hrun] at hr
    simp at hr
  | some st =>
    rw [hrun] at hr
    rw [(sortDescBy_perm dateKey _).mem_iff] at hr
    have hr2 := (List.mem_filter.mp hr).1
    unfold blameValues at hr2
    rcases List.mem_map.mp hr2 with ⟨p, hp, rfl⟩
    have hst : StInv st := processLines_StInv StInv_init hrun
    exact (hst.2 p hp).2

/-- Witness for C8 at a record carrying a github PR reference. -/
theorem claim_C8_witness :
    ((blockRec 0 0 prDemoBlock).prNumber).isSome
      = ((blockRec 0 0 prDemoBlock).prSource).isSome :=
  claim_C8.2 (blocksLines [prDemoBlock]) 0 0 (blockRec 0 0 prDemoBlock) (by decide)
